import Mathlib

set_option maxHeartbeats 2000000
set_option maxRecDepth 4000

/-!
Shallow embedding of the matching/scoring core of `src/agent.py`
(job-application copilot agent), together with proofs settling the
frozen claims about its specification.

Texts are modelled as `List Char`.  Python string operations are
embedded as executable functions over character lists:

* `normalize`       — `re.sub(r"\s+", " ", text).strip().lower()`
* `tokenize_words`  — `re.findall(r"[a-z0-9\+\#\.]+", t)` + stopword/length filter
* `extract_keywords`— word-boundary bank matching (`re.search(rf"\b{kw}\b", t)`)
* `find_red_flags`  — substring scan of the red-flag bank
* `extract_phrases` / `rerank_phrases_diverse` / `phrase_coverage`
* `safe_rewrite_bullet` and its keyword-injection loop

Whitespace and word-character classes are modelled over the ASCII range
(the inputs the program manipulates are ASCII text; Python's `\s` / `\w`
agree with these classes there).  Python floats are modelled as `ℚ`;
the only coverage values the claims mention (0 and 1) are exact in both.
-/

namespace Agent

/-- Whitespace test for a character, matching Python's `\s` class on the
ASCII range: space, tab, newline, carriage return, vertical tab, form feed. -/
def isWS (c : Char) : Bool :=
  decide (c.toNat = 32) || decide (c.toNat = 9) || decide (c.toNat = 10) ||
  decide (c.toNat = 13) || decide (c.toNat = 11) || decide (c.toNat = 12)

/-- Word-character test matching Python's `\w` class on the ASCII range:
letters, digits and underscore. -/
def isWordChar (c : Char) : Bool :=
  (decide (97 ≤ c.toNat) && decide (c.toNat ≤ 122)) ||
  (decide (65 ≤ c.toNat) && decide (c.toNat ≤ 90)) ||
  (decide (48 ≤ c.toNat) && decide (c.toNat ≤ 57)) ||
  decide (c.toNat = 95)

/-- Collapse every maximal run of whitespace to a single space, as
`re.sub(r"\s+", " ", text)` does.  The boolean state records whether the
previous character was part of a whitespace run already emitted as `' '`. -/
def collapseGo (prevWS : Bool) : List Char → List Char
  | [] => []
  | c :: rest =>
    if isWS c then
      if prevWS then collapseGo true rest
      else ' ' :: collapseGo true rest
    else c :: collapseGo false rest

/-- Whitespace-run collapsing entry point (`re.sub(r"\s+", " ", text)`). -/
def collapseWS (l : List Char) : List Char :=
  collapseGo false l

/-- Drop trailing whitespace characters (the right half of Python `str.strip`). -/
def dropEndWS : List Char → List Char
  | [] => []
  | c :: rest =>
    let r := dropEndWS rest
    if r = [] && isWS c then [] else c :: r

/-- Python `str.strip()`: drop leading and trailing whitespace. -/
def stripWS (l : List Char) : List Char :=
  dropEndWS (l.dropWhile isWS)

/-- The normalizer of `agent.py` (`normalize`, lines 99–101) applied to a
string: collapse whitespace runs, strip the ends, lowercase
(`Char.toLower` is exactly Python's `str.lower` on ASCII letters). -/
def normalize (text : List Char) : List Char :=
  (stripWS (collapseWS text)).map Char.toLower

/-- The normalizer including its `None` guard (line 100 of `agent.py`:
`text = "" if text is None else str(text)`). -/
def normalize_total (text : Option (List Char)) : List Char :=
  normalize (text.getD [])

/-- No two adjacent whitespace characters occur in the list. -/
def noAdjWS : List Char → Bool
  | [] => true
  | [_] => true
  | a :: b :: t => (!(isWS a && isWS b)) && noAdjWS (b :: t)

/-- Decidable characterisation of a fully normalized string: lowercased,
every whitespace character is a plain space, no two adjacent whitespace
characters, and no leading or trailing whitespace. -/
def isNormalized (l : List Char) : Bool :=
  l.all (fun c => Char.toLower c == c) &&
  l.all (fun c => !isWS c || c == ' ') &&
  noAdjWS l &&
  (match l.head? with | none => true | some c => !isWS c) &&
  (match l.getLast? with | none => true | some c => !isWS c)

/- ## Character-level facts -/

theorem char_ofNat_lower_toNat : ∀ m : Nat, 65 ≤ m → m ≤ 90 →
    (Char.ofNat (m + 32)).toNat = m + 32 := by
  intro m h1 h2
  interval_cases m <;> decide

theorem toLower_toNat_of_upper {c : Char} (h1 : 65 ≤ c.toNat) (h2 : c.toNat ≤ 90) :
    (Char.toLower c).toNat = c.toNat + 32 := by
  unfold Char.toLower
  rw [if_pos ⟨h1, h2⟩]
  exact char_ofNat_lower_toNat c.toNat h1 h2

theorem toLower_eq_of_not_upper {c : Char} (h : ¬(65 ≤ c.toNat ∧ c.toNat ≤ 90)) :
    Char.toLower c = c := by
  unfold Char.toLower
  rw [if_neg h]

theorem isWS_eq_false_of_ge {c : Char} (h : 33 ≤ c.toNat) : isWS c = false := by
  simp only [isWS, Bool.or_eq_false_iff, decide_eq_false_iff_not]
  omega

theorem isWS_toLower (c : Char) : isWS (Char.toLower c) = isWS c := by
  by_cases h : 65 ≤ c.toNat ∧ c.toNat ≤ 90
  · have h1 := toLower_toNat_of_upper h.1 h.2
    rw [isWS_eq_false_of_ge (by rw [h1]; omega), isWS_eq_false_of_ge (by omega)]
  · rw [toLower_eq_of_not_upper h]

theorem toLower_toLower (c : Char) : Char.toLower (Char.toLower c) = Char.toLower c := by
  by_cases h : 65 ≤ c.toNat ∧ c.toNat ≤ 90
  · have h1 := toLower_toNat_of_upper h.1 h.2
    apply toLower_eq_of_not_upper
    rw [h1]
    omega
  · rw [toLower_eq_of_not_upper h, toLower_eq_of_not_upper h]

/- ## Structure of collapsed strings -/

theorem mem_collapseGo_WS : ∀ (l : List Char) (b : Bool) (c : Char),
    c ∈ collapseGo b l → isWS c = true → c = ' ' := by
  intro l
  induction l with
  | nil => intro b c h; simp [collapseGo] at h
  | cons a rest ih =>
    intro b c h hws
    by_cases ha : isWS a = true
    · cases b with
      | true =>
        simp only [collapseGo, ha, if_true] at h
        exact ih true c h hws
      | false =>
        simp only [collapseGo, ha, if_true, if_false] at h
        rcases List.mem_cons.mp h with h1 | h2
        · exact h1
        · exact ih true c h2 hws
    · have ha' : isWS a = false := by revert ha; cases isWS a <;> simp
      simp only [collapseGo, ha', Bool.false_eq_true, if_false] at h
      rcases List.mem_cons.mp h with h1 | h2
      · rw [h1] at hws; rw [hws] at ha'; cases ha'
      · exact ih false c h2 hws

theorem head?_collapseGo_true : ∀ (l : List Char) (c : Char),
    (collapseGo true l).head? = some c → isWS c = false := by
  intro l
  induction l with
  | nil => intro c h; simp [collapseGo] at h
  | cons a rest ih =>
    intro c h
    by_cases ha : isWS a = true
    · simp only [collapseGo, ha, if_true] at h
      exact ih c h
    · have ha' : isWS a = false := by revert ha; cases isWS a <;> simp
      simp only [collapseGo, ha', Bool.false_eq_true, if_false, List.head?_cons,
        Option.some.injEq] at h
      rw [← h]; exact ha'

theorem noAdjWS_tail {x : Char} {m : List Char} (h : noAdjWS (x :: m) = true) :
    noAdjWS m = true := by
  cases m with
  | nil => rfl
  | cons y t =>
    simp only [noAdjWS, Bool.and_eq_true] at h
    exact h.2

theorem noAdjWS_cons_of_head {x : Char} {m : List Char}
    (h : ∀ d, m.head? = some d → (isWS x && isWS d) = false)
    (hm : noAdjWS m = true) : noAdjWS (x :: m) = true := by
  cases m with
  | nil => rfl
  | cons y t =>
    simp only [noAdjWS, Bool.and_eq_true]
    refine ⟨?_, hm⟩
    have := h y rfl
    simp [this]

theorem noAdjWS_cons_pair {x y : Char} {t : List Char}
    (h : noAdjWS (x :: y :: t) = true) : (isWS x && isWS y) = false := by
  simp only [noAdjWS, Bool.and_eq_true] at h
  rcases h with ⟨h1, _⟩
  revert h1; cases (isWS x && isWS y) <;> simp

theorem noAdjWS_collapseGo : ∀ (l : List Char) (b : Bool),
    noAdjWS (collapseGo b l) = true := by
  intro l
  induction l with
  | nil => intro b; rfl
  | cons a rest ih =>
    intro b
    by_cases ha : isWS a = true
    · cases b with
      | true => simpa only [collapseGo, ha, if_true] using ih true
      | false =>
        simp only [collapseGo, ha, if_true, if_false]
        apply noAdjWS_cons_of_head
        · intro d hd
          have hd' : isWS d = false := head?_collapseGo_true rest d hd
          simp [hd']
        · exact ih true
    · have ha' : isWS a = false := by revert ha; cases isWS a <;> simp
      simp only [collapseGo, ha', Bool.false_eq_true, if_false]
      apply noAdjWS_cons_of_head
      · intro d _; simp [ha']
      · exact ih false

/- ## Structure of stripped strings -/

theorem dropEndWS_append : ∀ l : List Char, ∃ t, l = dropEndWS l ++ t := by
  intro l
  induction l with
  | nil => exact ⟨[], rfl⟩
  | cons c rest ih =>
    obtain ⟨t, ht⟩ := ih
    simp only [dropEndWS]
    by_cases h : (decide (dropEndWS rest = []) && isWS c) = true
    · rw [if_pos h]; exact ⟨c :: rest, rfl⟩
    · rw [if_neg h]
      exact ⟨t, by rw [List.cons_append, ← ht]⟩

theorem mem_dropEndWS {l : List Char} {c : Char} (h : c ∈ dropEndWS l) : c ∈ l := by
  obtain ⟨t, ht⟩ := dropEndWS_append l
  rw [ht]
  exact List.mem_append_left t h

theorem getLast?_dropEndWS : ∀ (l : List Char) (c : Char),
    (dropEndWS l).getLast? = some c → isWS c = false := by
  intro l
  induction l with
  | nil => intro c h; simp [dropEndWS] at h
  | cons a rest ih =>
    intro c h
    simp only [dropEndWS] at h
    by_cases hr : (decide (dropEndWS rest = []) && isWS a) = true
    · rw [if_pos hr] at h; simp at h
    · rw [if_neg hr] at h
      cases he : dropEndWS rest with
      | nil =>
        rw [he] at h
        simp only [List.getLast?_singleton, Option.some.injEq] at h
        rw [← h]
        revert hr
        rw [he]
        cases isWS a <;> simp
      | cons y t =>
        rw [he, List.getLast?_cons_cons] at h
        exact ih c (by rw [he]; exact h)

theorem dropEndWS_eq_self : ∀ l : List Char,
    (∀ c, l.getLast? = some c → isWS c = false) → dropEndWS l = l := by
  intro l
  induction l with
  | nil => intro _; rfl
  | cons a rest ih =>
    intro h
    simp only [dropEndWS]
    cases rest with
    | nil =>
      have ha : isWS a = false := h a rfl
      simp [dropEndWS, ha]
    | cons b t =>
      have h2 : ∀ c, (b :: t).getLast? = some c → isWS c = false := by
        intro c hc
        exact h c (by rw [List.getLast?_cons_cons]; exact hc)
      rw [ih h2]
      simp

theorem dropWhile_eq_self_of_head {l : List Char} {p : Char → Bool}
    (h : ∀ c, l.head? = some c → p c = false) : l.dropWhile p = l := by
  cases l with
  | nil => rfl
  | cons a rest =>
    rw [List.dropWhile_cons, if_neg]
    simp [h a rfl]

theorem head?_stripWS : ∀ (l : List Char) (c : Char),
    (stripWS l).head? = some c → isWS c = false := by
  intro l c h
  unfold stripWS at h
  obtain ⟨t, ht⟩ := dropEndWS_append (l.dropWhile isWS)
  cases he : dropEndWS (l.dropWhile isWS) with
  | nil => rw [he] at h; simp at h
  | cons x s =>
    rw [he] at h
    simp only [List.head?_cons, Option.some.injEq] at h
    have hx : (l.dropWhile isWS).head? = some x := by
      rw [ht, he]; rfl
    have := List.head?_dropWhile_not isWS l
    rw [hx] at this
    rw [← h]
    exact this

theorem noAdjWS_append_left : ∀ (a b : List Char),
    noAdjWS (a ++ b) = true → noAdjWS a = true := by
  intro a
  induction a with
  | nil => intro b _; rfl
  | cons x a' ih =>
    intro b h
    cases a' with
    | nil => rfl
    | cons y t =>
      have h' : noAdjWS (y :: t ++ b) = true := noAdjWS_tail h
      have hp : (isWS x && isWS y) = false := noAdjWS_cons_pair h
      have ht : noAdjWS (y :: t) = true := ih b h'
      simp only [noAdjWS, Bool.and_eq_true]
      exact ⟨by simp [hp], ht⟩

theorem noAdjWS_append_right : ∀ (a b : List Char),
    noAdjWS (a ++ b) = true → noAdjWS b = true := by
  intro a
  induction a with
  | nil => intro b h; exact h
  | cons x a' ih =>
    intro b h
    exact ih b (noAdjWS_tail h)

theorem noAdjWS_map_toLower : ∀ l : List Char,
    noAdjWS (l.map Char.toLower) = noAdjWS l := by
  intro l
  induction l with
  | nil => rfl
  | cons x m ih =>
    cases m with
    | nil => rfl
    | cons y t =>
      simp only [List.map_cons] at ih ⊢
      simp only [noAdjWS, isWS_toLower, ih]

/- ## Fixed points of the normalization passes -/

theorem collapseGo_true_eq_false_of_head {b : Char} {t : List Char}
    (hb : isWS b = false) : collapseGo true (b :: t) = collapseGo false (b :: t) := by
  simp [collapseGo, hb]

theorem collapseGo_false_eq_self : ∀ l : List Char,
    (∀ c ∈ l, isWS c = true → c = ' ') → noAdjWS l = true →
    collapseGo false l = l := by
  intro l
  induction l with
  | nil => intro _ _; rfl
  | cons a rest ih =>
    intro hWS hAdj
    by_cases ha : isWS a = true
    · have ha' : a = ' ' := hWS a (List.mem_cons_self a rest) ha
      simp only [collapseGo, ha, if_true]
      cases rest with
      | nil => rw [ha']; rfl
      | cons b t =>
        have hb : isWS b = false := by
          have hp := noAdjWS_cons_pair hAdj
          rw [ha] at hp
          simpa using hp
        rw [collapseGo_true_eq_false_of_head hb]
        rw [ih (fun c hc => hWS c (List.mem_cons_of_mem a hc)) (noAdjWS_tail hAdj)]
        rw [ha']
        simp
    · have ha' : isWS a = false := by revert ha; cases isWS a <;> simp
      simp only [collapseGo, ha', Bool.false_eq_true, if_false]
      rw [ih (fun c hc => hWS c (List.mem_cons_of_mem a hc)) (noAdjWS_tail hAdj)]

theorem map_toLower_eq_self {l : List Char}
    (h : ∀ c ∈ l, Char.toLower c = c) : l.map Char.toLower = l := by
  rw [List.map_congr_left h, List.map_id']

/- ## The normalized-output invariant -/

theorem normalize_WS_eq_space : ∀ (x : List Char) (c : Char),
    c ∈ normalize x → isWS c = true → c = ' ' := by
  intro x c hc hws
  unfold normalize at hc
  obtain ⟨c', hc', rfl⟩ := List.mem_map.mp hc
  have hmem : c' ∈ collapseGo false x :=
    (List.dropWhile_sublist isWS).subset (mem_dropEndWS hc')
  rw [isWS_toLower] at hws
  have := mem_collapseGo_WS x false c' hmem hws
  rw [this]
  rfl

theorem normalize_noAdjWS : ∀ x : List Char, noAdjWS (normalize x) = true := by
  intro x
  unfold normalize
  rw [noAdjWS_map_toLower]
  unfold stripWS
  obtain ⟨t, ht⟩ := dropEndWS_append ((collapseWS x).dropWhile isWS)
  apply noAdjWS_append_left _ t
  rw [← ht]
  apply noAdjWS_append_right ((collapseWS x).takeWhile isWS)
  rw [List.takeWhile_append_dropWhile]
  exact noAdjWS_collapseGo x false

theorem normalize_head? : ∀ (x : List Char) (c : Char),
    (normalize x).head? = some c → isWS c = false := by
  intro x c h
  unfold normalize at h
  rw [List.head?_map] at h
  cases hz : (stripWS (collapseWS x)).head? with
  | none => rw [hz] at h; cases h
  | some c' =>
    rw [hz] at h
    simp only [Option.map_some', Option.some.injEq] at h
    rw [← h, isWS_toLower]
    exact head?_stripWS (collapseWS x) c' hz

theorem normalize_getLast? : ∀ (x : List Char) (c : Char),
    (normalize x).getLast? = some c → isWS c = false := by
  intro x c h
  unfold normalize at h
  rw [List.getLast?_map] at h
  cases hz : (stripWS (collapseWS x)).getLast? with
  | none => rw [hz] at h; cases h
  | some c' =>
    rw [hz] at h
    simp only [Option.map_some', Option.some.injEq] at h
    rw [← h, isWS_toLower]
    exact getLast?_dropEndWS ((collapseWS x).dropWhile isWS) c' hz

theorem normalize_lower_fixed : ∀ (x : List Char) (c : Char),
    c ∈ normalize x → Char.toLower c = c := by
  intro x c hc
  unfold normalize at hc
  obtain ⟨c', _, rfl⟩ := List.mem_map.mp hc
  exact toLower_toLower c'

theorem normalize_idem : ∀ x : List Char, normalize (normalize x) = normalize x := by
  intro x
  have h1 : collapseWS (normalize x) = normalize x :=
    collapseGo_false_eq_self _ (normalize_WS_eq_space x) (normalize_noAdjWS x)
  have h2 : stripWS (normalize x) = normalize x := by
    unfold stripWS
    rw [dropWhile_eq_self_of_head (normalize_head? x)]
    exact dropEndWS_eq_self _ (normalize_getLast? x)
  calc normalize (normalize x)
      = (stripWS (collapseWS (normalize x))).map Char.toLower := rfl
    _ = (stripWS (normalize x)).map Char.toLower := by rw [h1]
    _ = (normalize x).map Char.toLower := by rw [h2]
    _ = normalize x := map_toLower_eq_self (normalize_lower_fixed x)

theorem isNormalized_normalize : ∀ x : List Char, isNormalized (normalize x) = true := by
  intro x
  unfold isNormalized
  simp only [Bool.and_eq_true, List.all_eq_true]
  refine ⟨⟨⟨⟨?_, ?_⟩, ?_⟩, ?_⟩, ?_⟩
  · intro c hc
    simp [normalize_lower_fixed x c hc]
  · intro c hc
    by_cases hws : isWS c = true
    · have := normalize_WS_eq_space x c hc hws
      simp [this]
    · have : isWS c = false := by revert hws; cases isWS c <;> simp
      simp [this]
  · exact normalize_noAdjWS x
  · cases hh : (normalize x).head? with
    | none => rfl
    | some c => simp [normalize_head? x c hh]
  · cases hh : (normalize x).getLast? with
    | none => rfl
    | some c => simp [normalize_getLast? x c hh]

/-- C7: `normalize` is a total function over any input including the empty
string and `None` (modelled by `normalize_total`, line 100 of `agent.py`),
always returning a lowercased, whitespace-collapsed, trimmed string, and
it is idempotent: `normalize (normalize x) = normalize x` for every `x`. -/
theorem C7_normalize_total_idempotent :
    (∀ o : Option (List Char), isNormalized (normalize_total o) = true) ∧
    (∀ x : List Char, normalize (normalize x) = normalize x) ∧
    normalize_total none = [] := by
  refine ⟨?_, normalize_idem, rfl⟩
  intro o
  cases o with
  | none => exact isNormalized_normalize []
  | some s => exact isNormalized_normalize s

/- ## Substring containment (Python `in` on strings) -/

/-- Occurrence of `w` as a contiguous substring of `t`. -/
def SubstrP (w t : List Char) : Prop := ∃ pre post, t = pre ++ w ++ post

/-- Executable substring check, modelling Python's `in` operator on strings. -/
def isSubstr (w t : List Char) : Bool :=
  (List.range (t.length + 1)).any (fun i => (t.drop i).take w.length == w)

theorem isSubstr_iff (w t : List Char) : isSubstr w t = true ↔ SubstrP w t := by
  unfold isSubstr SubstrP
  rw [List.any_eq_true]
  constructor
  · rintro ⟨i, _, hw⟩
    rw [beq_iff_eq] at hw
    refine ⟨t.take i, (t.drop i).drop w.length, ?_⟩
    conv_lhs => rw [← List.take_append_drop i t]
    rw [List.append_assoc]
    congr 1
    conv_lhs => rw [← List.take_append_drop w.length (t.drop i)]
    rw [hw]
  · rintro ⟨pre, post, rfl⟩
    refine ⟨pre.length, ?_, ?_⟩
    · rw [List.mem_range]
      simp only [List.append_assoc, List.length_append]
      omega
    · rw [beq_iff_eq, List.append_assoc, List.drop_left]
      exact List.take_left w post

/- ## Sorting by a key (Python `sorted`) -/

/-- Lexicographic comparison on character lists (Python string `<=`). -/
def lexLe : List Char → List Char → Bool
  | [], _ => true
  | _ :: _, [] => false
  | a :: as, b :: bs => if a = b then lexLe as bs else decide (a < b)

/-- Case-insensitive comparison: the `key=str.lower` sort key. -/
def lowerLe (a b : List Char) : Bool :=
  lexLe (a.map Char.toLower) (b.map Char.toLower)

/-- Insertion into a sorted list; earlier elements win ties, matching the
stability of Python's sort. -/
def insertSorted {α : Type} (le : α → α → Bool) (x : α) : List α → List α
  | [] => [x]
  | y :: ys => if le x y then x :: y :: ys else y :: insertSorted le x ys

/-- Insertion sort by a boolean comparison, modelling Python `sorted`. -/
def sortBy {α : Type} (le : α → α → Bool) (l : List α) : List α :=
  l.foldr (insertSorted le) []

theorem mem_insertSorted {α : Type} (le : α → α → Bool) (x a : α) :
    ∀ l : List α, a ∈ insertSorted le x l ↔ a = x ∨ a ∈ l := by
  intro l
  induction l with
  | nil => simp [insertSorted]
  | cons y ys ih =>
    simp only [insertSorted]
    by_cases h : le x y = true
    · rw [if_pos h]
      simp [List.mem_cons]
    · rw [if_neg h]
      simp only [List.mem_cons, ih]
      tauto

theorem mem_sortBy {α : Type} (le : α → α → Bool) (a : α) :
    ∀ l : List α, a ∈ sortBy le l ↔ a ∈ l := by
  intro l
  induction l with
  | nil => simp [sortBy]
  | cons y ys ih =>
    simp only [sortBy, List.foldr_cons] at ih ⊢
    rw [mem_insertSorted, ih, List.mem_cons]

/- ## Keyword banks -/

/-- The fixed tech keyword bank (`TECH_KEYWORDS`, lines 21–26 of `agent.py`). -/
def TECH_KEYWORDS : List (List Char) :=
  [ r"python".data, r"sql".data, r"api".data, r"rest".data, r"fastapi".data,
    r"flask".data, r"docker".data, r"git".data, r"aws".data, r"azure".data,
    r"gcp".data, r"linux".data, r"windows".data, r"powershell".data,
    r"servicenow".data, r"jira".data, r"incident".data, r"sla".data,
    r"intune".data, r"mdm".data, r"troubleshooting".data, r"automation".data,
    r"llm".data, r"prompt".data, r"validation".data ]

/-- The red-flag phrase bank (`RED_FLAG_PHRASES`, lines 28–31), in source order. -/
def RED_FLAG_PHRASES : List (List Char) :=
  [ r"unpaid".data, r"pay to apply".data, r"gift card".data, r"telegram".data,
    r"whatsapp".data, r"kindly".data, r"wire transfer".data, r"check deposit".data,
    r"remote equipment fee".data ]

/- ## Keyword matcher -/

/-- Wordness of an optional character; the ends of the text count as non-word. -/
def optWord (c : Option Char) : Bool :=
  match c with
  | none => false
  | some c => isWordChar c

/-- Python's `\b` assertion: a word boundary sits between two positions of
different wordness. -/
def boundaryB (a b : Option Char) : Bool := optWord a != optWord b

/-- Model of `re.search(rf"\b{re.escape(kw.lower())}\b", t)` (line 138):
`kw` occurs in `t` at some position with a word boundary on both sides. -/
def hasWordMatch (kw t : List Char) : Bool :=
  (List.range (t.length + 1)).any (fun i =>
    ((t.drop i).take kw.length == kw) &&
    boundaryB (t.take i).getLast? (t.drop i).head? &&
    boundaryB (t.take (i + kw.length)).getLast? (t.drop (i + kw.length)).head?)

/-- The keyword matcher (`extract_keywords`, lines 134–140): word-boundary
search of each lowercased bank term in the normalized text, then
`sorted(set(found), key=str.lower)`.  Python's set iteration order is
unspecified; the dedup-then-sort here agrees with it on membership, and on
order whenever no two found terms share a lowercase form (always the case
for the bank the program uses). -/
def extract_keywords (text : List Char) (keyword_list : List (List Char)) : List (List Char) :=
  let t := normalize text
  sortBy lowerLe ((keyword_list.filter (fun kw => hasWordMatch (kw.map Char.toLower) t)).dedup)

/-- The overlap/missing split of `run_agent` (lines 287–288):
`sorted(set(resume_kws).intersection(job_kws), key=str.lower)` paired with
`sorted(set(job_kws).difference(resume_kws), key=str.lower)`. -/
def overlap_missing (resume_text job_text : List Char) (bank : List (List Char)) :
    List (List Char) × List (List Char) :=
  let resume_kws := extract_keywords resume_text bank
  let job_kws := extract_keywords job_text bank
  (sortBy lowerLe ((resume_kws.filter (fun k => decide (k ∈ job_kws))).dedup),
   sortBy lowerLe ((job_kws.filter (fun k => !decide (k ∈ resume_kws))).dedup))

/-- C1: for every keyword bank and every resume/job text pair, the bank
overlap and missing lists of `run_agent` partition the job-posting bank
keywords before any `[PHRASE]`-tagged entries are appended: a keyword is in
`overlap ∪ missing` exactly when it is in `extract_keywords job bank`, and
no keyword is in both lists. -/
theorem C1_overlap_missing_partition :
    ∀ (bank : List (List Char)) (resume_text job_text : List Char) (x : List Char),
      ((x ∈ (overlap_missing resume_text job_text bank).1 ∨
        x ∈ (overlap_missing resume_text job_text bank).2) ↔
        x ∈ extract_keywords job_text bank) ∧
      ¬(x ∈ (overlap_missing resume_text job_text bank).1 ∧
        x ∈ (overlap_missing resume_text job_text bank).2) := by
  intro bank r j x
  unfold overlap_missing
  simp only [mem_sortBy, List.mem_dedup, List.mem_filter, decide_eq_true_eq,
    Bool.not_eq_true', decide_eq_false_iff_not]
  constructor
  · constructor
    · rintro (⟨_, hj⟩ | ⟨hj, _⟩) <;> exact hj
    · intro hj
      by_cases hr : x ∈ extract_keywords r bank
      · exact Or.inl ⟨hr, hj⟩
      · exact Or.inr ⟨hj, hr⟩
  · rintro ⟨⟨hr, _⟩, ⟨_, hnr⟩⟩
    exact hnr hr

/- ## Red-flag detection -/

/-- Red-flag detection (`find_red_flags`, lines 143–145): substring scan of
the normalized job text, keeping the bank order. -/
def find_red_flags (job_text : List Char) : List (List Char) :=
  RED_FLAG_PHRASES.filter (fun p => isSubstr p (normalize job_text))

/-- C5 counterexample: a job text containing exactly the red-flag phrases
"wire transfer" and "gift card" yields them in bank order, which puts
"gift card" first — not `["wire transfer", "gift card"]` as the claim
states. -/
theorem C5_counterexample :
    find_red_flags (r"send a wire transfer or buy a gift card today".data) ≠
      [ r"wire transfer".data, r"gift card".data ] := by decide

/-- C5 (amended): for every job text whose normalization contains the
phrases "gift card" and "wire transfer" as substrings and no other
red-flag phrase, `find_red_flags` returns `["gift card", "wire transfer"]`
— the two matches in bank order, in which "gift card" precedes
"wire transfer".  The result is a function of the job text alone, so it is
independent of resume content. -/
theorem C5_red_flags_bank_order :
    ∀ job_text : List Char,
      isSubstr (r"gift card".data) (normalize job_text) = true →
      isSubstr (r"wire transfer".data) (normalize job_text) = true →
      isSubstr (r"unpaid".data) (normalize job_text) = false →
      isSubstr (r"pay to apply".data) (normalize job_text) = false →
      isSubstr (r"telegram".data) (normalize job_text) = false →
      isSubstr (r"whatsapp".data) (normalize job_text) = false →
      isSubstr (r"kindly".data) (normalize job_text) = false →
      isSubstr (r"check deposit".data) (normalize job_text) = false →
      isSubstr (r"remote equipment fee".data) (normalize job_text) = false →
      find_red_flags job_text = [ r"gift card".data, r"wire transfer".data ] := by
  intro j h1 h2 h3 h4 h5 h6 h7 h8 h9
  unfold find_red_flags RED_FLAG_PHRASES
  simp [List.filter_cons, h1, h2, h3, h4, h5, h6, h7, h8, h9]

/-- Witness for C5 (amended) at a concrete job text. -/
theorem C5_red_flags_bank_order_witness :
    find_red_flags (r"send a wire transfer or buy a gift card today".data) =
      [ r"gift card".data, r"wire transfer".data ] :=
  C5_red_flags_bank_order _ (by decide) (by decide) (by decide) (by decide)
    (by decide) (by decide) (by decide) (by decide) (by decide)

/- ## Tokenizer -/

/-- Character class of the token regex `[a-z0-9\+\#\.]+` (line 226). -/
def isTokChar (c : Char) : Bool :=
  (decide (97 ≤ c.toNat) && decide (c.toNat ≤ 122)) ||
  (decide (48 ≤ c.toNat) && decide (c.toNat ≤ 57)) ||
  decide (c.toNat = 43) || decide (c.toNat = 35) || decide (c.toNat = 46)

/-- Maximal runs of characters satisfying `p`: `re.findall` of the class
`p+`, and also Python `str.split()` when `p` is "not whitespace".  The
accumulator holds the current run reversed. -/
def runsAux (p : Char → Bool) (acc : List Char) : List Char → List (List Char)
  | [] => if acc = [] then [] else [acc.reverse]
  | c :: rest =>
    if p c then runsAux p (c :: acc) rest
    else if acc = [] then runsAux p [] rest
    else acc.reverse :: runsAux p [] rest

/-- The stopword set (`STOPWORDS`, lines 78–84). -/
def STOPWORDS : List (List Char) :=
  [ r"the".data, r"and".data, r"or".data, r"a".data, r"an".data, r"to".data,
    r"of".data, r"in".data, r"for".data, r"with".data, r"on".data, r"at".data,
    r"by".data, r"from".data, r"as".data, r"is".data, r"are".data, r"be".data,
    r"this".data, r"that".data, r"these".data, r"those".data, r"you".data,
    r"your".data, r"we".data, r"our".data, r"will".data, r"can".data,
    r"may".data, r"must".data, r"should".data, r"have".data, r"has".data,
    r"had".data, r"their".data, r"they".data, r"them".data, r"it".data,
    r"its".data, r"not".data, r"but".data, r"if".data, r"than".data,
    r"then".data, r"about".data, r"into".data, r"over".data, r"within".data,
    r"across".data, r"per".data, r"including".data, r"etc".data, r"join".data,
    r"ability".data, r"perform".data, r"routine".data, r"handle".data,
    r"maintain".data, r"collaborate".data, r"improvement".data,
    r"knowledge".data ]

/-- The domain signal-word set (`TECH_SIGNAL_WORDS`, lines 67–75). -/
def TECH_SIGNAL_WORDS : List (List Char) :=
  [ r"windows".data, r"linux".data, r"mac".data, r"microsoft".data,
    r"azure".data, r"aws".data, r"gcp".data, r"active".data, r"directory".data,
    r"vpn".data, r"mfa".data, r"intune".data, r"servicenow".data, r"jira".data,
    r"ticket".data, r"incident".data, r"sla".data, r"endpoint".data,
    r"desktop".data, r"hardware".data, r"software".data, r"network".data,
    r"printer".data, r"outlook".data, r"exchange".data, r"o365".data,
    r"office".data, r"sql".data, r"python".data, r"api".data,
    r"powershell".data, r"security".data, r"firewall".data, r"router".data,
    r"switch".data, r"server".data, r"deployment".data, r"imaging".data,
    r"autopilot".data, r"sccm".data ]

/-- The tokenizer (`tokenize_words`, lines 224–227): token-character runs of
the normalized text, dropping empty tokens, stopwords and words of
length ≤ 2. -/
def tokenize_words (text : List Char) : List (List Char) :=
  let t := normalize text
  (runsAux isTokChar [] t).filter
    (fun w => !decide (w = []) && !decide (w ∈ STOPWORDS) && decide (2 < w.length))

/-- Python `" ".join` on a list of words. -/
def joinSpace : List (List Char) → List Char
  | [] => []
  | [w] => w
  | w :: ws => w ++ ' ' :: joinSpace ws

/-- Python `str.split()` with no argument: maximal non-whitespace runs. -/
def splitOnWS (l : List Char) : List (List Char) :=
  runsAux (fun c => !isWS c) [] l

/- ## Diversity rerank -/

/-- Python `max(t :: ts, key=len)`: the first element of maximal length. -/
def maxByLen (t : List Char) (ts : List (List Char)) : List Char :=
  ts.foldl (fun best w => if best.length < w.length then w else best) t

/-- Anchor of a phrase in the diversity rerank (line 235):
`max(p.split(), key=len)` when the split is non-empty, else the phrase
itself.  Python `max` keeps the first maximum, so ties go to the word
occurring first in the phrase. -/
def anchorOf (p : List Char) : List Char :=
  match splitOnWS p with
  | [] => p
  | t :: ts => maxByLen t ts

/-- Loop of `rerank_phrases_diverse` (lines 233–238): every phrase
increments its anchor's running count, and the phrase is kept while the
incremented count stays within the cap. -/
def rerankGo (cap : Nat) (counts : List Char → Nat) : List (List Char) → List (List Char)
  | [] => []
  | p :: ps =>
    if counts (anchorOf p) + 1 ≤ cap then
      p :: rerankGo cap
        (fun w => if w = anchorOf p then counts (anchorOf p) + 1 else counts w) ps
    else
      rerankGo cap
        (fun w => if w = anchorOf p then counts (anchorOf p) + 1 else counts w) ps

/-- Diversity rerank (`rerank_phrases_diverse`, lines 230–239); the
`max_per_token` parameter defaults to 3 in the source signature. -/
def rerank_phrases_diverse (phrases : List (List Char)) (max_per_token : Nat := 3) :
    List (List Char) :=
  rerankGo max_per_token (fun _ => 0) phrases

/- ## Phrase extraction -/

/-- Phrase relevance filter (`is_good_phrase`, lines 242–244): at least one
word of the lowercased phrase is a tech signal word. -/
def is_good_phrase (p : List Char) : Bool :=
  (splitOnWS (p.map Char.toLower)).any (fun w => decide (w ∈ TECH_SIGNAL_WORDS))

/-- Comparison on `(phrase, count)` items realising the sort key
`(-count, phrase)` of line 257: larger count first, ties by ascending
phrase. -/
def itemLe (a b : List Char × Nat) : Bool :=
  if a.2 = b.2 then lexLe a.1 b.1 else decide (b.2 < a.2)

/-- Frequency table of the phrase list, ranked by descending count then
ascending phrase (lines 253–257).  The key is a strict total order on
distinct phrases, so the ranking is fully determined. -/
def freqItems (ps : List (List Char)) : List (List Char × Nat) :=
  sortBy itemLe (ps.dedup.map (fun p => (p, ps.count p)))

/-- The phrase extractor (`extract_phrases`, lines 247–266).  Source
defaults: `n = 2`, `top_k = 25`; the diversity-rerank call at line 265
passes `max_per_token = 2`. -/
def extract_phrases (text : List Char) (n : Nat := 2) (top_k : Nat := 25) :
    List (List Char) :=
  let words := tokenize_words text
  let phrases := (List.range (words.length + 1 - n)).map
    (fun i => joinSpace ((words.drop i).take n))
  let items := freqItems phrases
  let filtered0 := (items.filter (fun x => decide (1 < x.2))).map (fun x => x.1)
  let filtered1 := filtered0.filter is_good_phrase
  let filtered2 := if filtered1.length < 10
    then (items.map (fun x => x.1)).filter is_good_phrase
    else filtered1
  let filtered3 := rerank_phrases_diverse filtered2 2
  filtered3.take top_k

/-- Variant of `extract_phrases` whose diversity-rerank cap is a parameter.
Modelled from the spec: the spec describes the coverage call site as using
cap 3 while the final top-K extraction uses cap 2; this definition lets the
two descriptions be compared against the code. -/
def extract_phrases_spec_cap (cap : Nat) (text : List Char) (n top_k : Nat) :
    List (List Char) :=
  let words := tokenize_words text
  let phrases := (List.range (words.length + 1 - n)).map
    (fun i => joinSpace ((words.drop i).take n))
  let items := freqItems phrases
  let filtered0 := (items.filter (fun x => decide (1 < x.2))).map (fun x => x.1)
  let filtered1 := filtered0.filter is_good_phrase
  let filtered2 := if filtered1.length < 10
    then (items.map (fun x => x.1)).filter is_good_phrase
    else filtered1
  let filtered3 := rerank_phrases_diverse filtered2 cap
  filtered3.take top_k

/-- Phrase coverage (`phrase_coverage`, lines 269–277): job phrases with
window 3 and top-k 25; a phrase is covered when it occurs verbatim as a
substring of the normalized resume text; coverage is
|overlap| / |job_phrases|, defined as 0 when there are no job phrases.
Python floats are modelled by `ℚ`. -/
def phrase_coverage (resume_text job_text : List Char) :
    ℚ × List (List Char) × List (List Char) :=
  let job_phrases := extract_phrases job_text 3 25
  let resume_norm := normalize resume_text
  let overlap := job_phrases.filter (fun p => isSubstr p resume_norm)
  let missing := job_phrases.filter (fun p => !isSubstr p resume_norm)
  (if job_phrases = [] then 0 else (overlap.length : ℚ) / (job_phrases.length : ℚ),
   overlap, missing)

/-- Spec-cap variant of `phrase_coverage`: the job phrases are generated
with the given diversity cap.  Modelled from the spec, which describes this
call site as using cap 3. -/
def phrase_coverage_spec_cap (cap : Nat) (resume_text job_text : List Char) :
    ℚ × List (List Char) × List (List Char) :=
  let job_phrases := extract_phrases_spec_cap cap job_text 3 25
  let resume_norm := normalize resume_text
  let overlap := job_phrases.filter (fun p => isSubstr p resume_norm)
  let missing := job_phrases.filter (fun p => !isSubstr p resume_norm)
  (if job_phrases = [] then 0 else (overlap.length : ℚ) / (job_phrases.length : ℚ),
   overlap, missing)

/- ## C6: the diversity-rerank invariant -/

theorem rerankGo_sublist : ∀ (ps : List (List Char)) (cap : Nat)
    (counts : List Char → Nat), List.Sublist (rerankGo cap counts ps) ps := by
  intro ps
  induction ps with
  | nil => intro cap counts; exact List.Sublist.refl []
  | cons p ps ih =>
    intro cap counts
    simp only [rerankGo]
    by_cases hc : counts (anchorOf p) + 1 ≤ cap
    · rw [if_pos hc]
      exact List.Sublist.cons₂ p (ih cap _)
    · rw [if_neg hc]
      exact List.Sublist.cons p (ih cap _)

theorem rerankGo_anchor_count : ∀ (ps : List (List Char)) (cap : Nat)
    (counts : List Char → Nat) (a : List Char),
    ((rerankGo cap counts ps).filter (fun p => decide (anchorOf p = a))).length ≤
      cap - counts a := by
  intro ps
  induction ps with
  | nil => intro cap counts a; simp [rerankGo]
  | cons p ps ih =>
    intro cap counts a
    simp only [rerankGo]
    by_cases ha : anchorOf p = a
    · subst ha
      by_cases hc : counts (anchorOf p) + 1 ≤ cap
      · rw [if_pos hc]
        rw [List.filter_cons_of_pos (by simp)]
        have h2 := ih cap
          (fun w => if w = anchorOf p then counts (anchorOf p) + 1 else counts w)
          (anchorOf p)
        rw [if_pos rfl] at h2
        simp only [List.length_cons]
        omega
      · rw [if_neg hc]
        have h2 := ih cap
          (fun w => if w = anchorOf p then counts (anchorOf p) + 1 else counts w)
          (anchorOf p)
        rw [if_pos rfl] at h2
        omega
    · have hne : a ≠ anchorOf p := fun h => ha h.symm
      have h2 := ih cap
        (fun w => if w = anchorOf p then counts (anchorOf p) + 1 else counts w) a
      rw [if_neg hne] at h2
      by_cases hc : counts (anchorOf p) + 1 ≤ cap
      · rw [if_pos hc]
        rw [List.filter_cons_of_neg (by simp [ha])]
        exact h2
      · rw [if_neg hc]
        exact h2

/-- C6: for every input phrase list and every cap, the diversity rerank
outputs a sub-sequence of its input (ranked order preserved) in which the
number of phrases sharing any single anchor word (longest constituent word,
ties to the first occurrence) never exceeds the cap. -/
theorem C6_rerank_diverse_invariant :
    ∀ (phrases : List (List Char)) (cap : Nat),
      List.Sublist (rerank_phrases_diverse phrases cap) phrases ∧
      ∀ a : List Char,
        ((rerank_phrases_diverse phrases cap).filter
          (fun p => decide (anchorOf p = a))).length ≤ cap := by
  intro phrases cap
  refine ⟨rerankGo_sublist phrases cap _, fun a => ?_⟩
  have := rerankGo_anchor_count phrases cap (fun _ => 0) a
  simpa using this

/- ## C4: window size and degenerate inputs -/

/-- C4 counterexample: the source default window size of `extract_phrases`
is 2, not 3 — at a concrete text, calling it with its defaults differs from
calling it with window 3. -/
theorem C4_counterexample :
    extract_phrases (r"windows linux python desktop".data) ≠
      extract_phrases (r"windows linux python desktop".data) 3 25 := by decide

/-- C4 (amended): the phrase extractor builds contiguous n-grams over the
token list with a fixed window size n whose source default is 2 (the
phrase-coverage call passes 3 explicitly), and any text with fewer than n
tokens yields no phrases. -/
theorem C4_window_and_short_text :
    (∀ text : List Char, extract_phrases text = extract_phrases text 2 25) ∧
    (∀ (text : List Char) (n top_k : Nat),
      (tokenize_words text).length < n → extract_phrases text n top_k = []) := by
  refine ⟨fun _ => rfl, ?_⟩
  intro text n k h
  simp only [extract_phrases]
  rw [show (tokenize_words text).length + 1 - n = 0 by omega]
  simp [freqItems, sortBy, rerank_phrases_diverse, rerankGo]

/-- Witness for C4 (amended) at a one-token text and window 3. -/
theorem C4_window_and_short_text_witness :
    (tokenize_words (r"abc".data)).length < 3 ∧
      extract_phrases (r"abc".data) 3 25 = [] :=
  ⟨by decide, C4_window_and_short_text.2 _ 3 25 (by decide)⟩

/- ## C3: the diversity-rerank caps at the two pipeline uses -/

/-- C3 counterexample: the phrase-coverage pipeline does not use a cap-3
diversity rerank.  On a concrete resume/job pair the coverage computed by
the code differs from the coverage computed with cap 3 at that call site. -/
theorem C3_counterexample :
    (phrase_coverage (r"aaa bbb powershell".data)
        (r"powershell aaa bbb powershell ccc ddd powershell eee fff".data)).1 ≠
      (phrase_coverage_spec_cap 3 (r"aaa bbb powershell".data)
        (r"powershell aaa bbb powershell ccc ddd powershell eee fff".data)).1 := by
  have h1 : extract_phrases
      (r"powershell aaa bbb powershell ccc ddd powershell eee fff".data) 3 25 =
      [ r"aaa bbb powershell".data, r"bbb powershell ccc".data ] := by decide
  have h2 : extract_phrases_spec_cap 3
      (r"powershell aaa bbb powershell ccc ddd powershell eee fff".data) 3 25 =
      [ r"aaa bbb powershell".data, r"bbb powershell ccc".data,
        r"ccc ddd powershell".data ] := by decide
  have h3 : [ r"aaa bbb powershell".data, r"bbb powershell ccc".data ].filter
      (fun p => isSubstr p (normalize (r"aaa bbb powershell".data))) =
      [ r"aaa bbb powershell".data ] := by decide
  have h4 : [ r"aaa bbb powershell".data, r"bbb powershell ccc".data,
      r"ccc ddd powershell".data ].filter
      (fun p => isSubstr p (normalize (r"aaa bbb powershell".data))) =
      [ r"aaa bbb powershell".data ] := by decide
  simp only [phrase_coverage, phrase_coverage_spec_cap]
  rw [h1, h2, h3, h4]
  simp only [List.cons_ne_nil, if_false, List.length_cons, List.length_nil,
    List.length_singleton]
  norm_num

/-- C3 (amended): the diversity rerank has a single call site, inside
`extract_phrases`, and both the phrase-coverage pipeline and the final
top-K extraction use cap 2 there; the cap value 3 exists only as the
unused default of `rerank_phrases_diverse`'s parameter. -/
theorem C3_single_call_site_cap2 :
    (∀ resume_text job_text : List Char,
      phrase_coverage resume_text job_text =
        phrase_coverage_spec_cap 2 resume_text job_text) ∧
    (∀ (text : List Char) (n top_k : Nat),
      extract_phrases text n top_k = extract_phrases_spec_cap 2 text n top_k) ∧
    (∀ phrases : List (List Char),
      rerank_phrases_diverse phrases = rerank_phrases_diverse phrases 3) :=
  ⟨fun _ _ => rfl, fun _ _ _ => rfl, fun _ => rfl⟩

/- ## C2: self coverage -/

theorem joinSpace_cons_cons (w v : List Char) (vs : List (List Char)) :
    joinSpace (w :: v :: vs) = w ++ ' ' :: joinSpace (v :: vs) := rfl

theorem joinSpace_take_front : ∀ (l : List (List Char)) (n : Nat),
    ∃ t, joinSpace l = joinSpace (l.take n) ++ t := by
  intro l
  induction l with
  | nil => intro n; exact ⟨[], by simp [joinSpace]⟩
  | cons w ws ih =>
    intro n
    cases n with
    | zero => exact ⟨joinSpace (w :: ws), by simp [joinSpace]⟩
    | succ n =>
      cases ws with
      | nil =>
        exact ⟨[], by simp [joinSpace]⟩
      | cons v vs =>
        obtain ⟨t, ht⟩ := ih n
        cases hn : (v :: vs).take n with
        | nil =>
          refine ⟨' ' :: joinSpace (v :: vs), ?_⟩
          simp only [List.take_succ_cons, hn, joinSpace_cons_cons, joinSpace]
        | cons y ys =>
          refine ⟨t, ?_⟩
          rw [joinSpace_cons_cons, ht, hn, List.take_succ_cons, hn,
            joinSpace_cons_cons]
          simp [List.append_assoc]

theorem joinSpace_drop_back : ∀ (i : Nat) (l : List (List Char)),
    ∃ pre, joinSpace l = pre ++ joinSpace (l.drop i) := by
  intro i
  induction i with
  | zero => intro l; exact ⟨[], rfl⟩
  | succ i ih =>
    intro l
    cases l with
    | nil => exact ⟨[], rfl⟩
    | cons w ws =>
      obtain ⟨pre, hpre⟩ := ih ws
      cases ws with
      | nil => exact ⟨w, by simp [joinSpace, List.drop_nil]⟩
      | cons v vs =>
        refine ⟨w ++ ' ' :: pre, ?_⟩
        rw [List.drop_succ_cons, joinSpace_cons_cons, hpre]
        simp [List.append_assoc]

theorem SubstrP_joinSpace_slice (l : List (List Char)) (i n : Nat) :
    SubstrP (joinSpace ((l.drop i).take n)) (joinSpace l) := by
  obtain ⟨pre, hpre⟩ := joinSpace_drop_back i l
  obtain ⟨t, ht⟩ := joinSpace_take_front (l.drop i) n
  exact ⟨pre, t, by rw [hpre, ht, List.append_assoc]⟩

theorem mem_freqItems_phrase {ps : List (List Char)} {x : List Char × Nat}
    (h : x ∈ freqItems ps) : x.1 ∈ ps := by
  unfold freqItems at h
  rw [mem_sortBy] at h
  obtain ⟨p, hp, hx⟩ := List.mem_map.mp h
  rw [← hx]
  exact List.mem_dedup.mp hp

theorem mem_if_filters {c : Prop} [Decidable c] {items : List (List Char × Nat)}
    {p : List Char} {g : List Char → Bool} {q : List Char × Nat → Bool}
    (h : p ∈ if c then (items.map (fun x => x.1)).filter g
              else (((items.filter q).map (fun x => x.1)).filter g)) :
    ∃ x ∈ items, x.1 = p := by
  split at h
  · obtain ⟨hmem, _⟩ := List.mem_filter.mp h
    obtain ⟨x, hx, hxp⟩ := List.mem_map.mp hmem
    exact ⟨x, hx, hxp⟩
  · obtain ⟨hmem, _⟩ := List.mem_filter.mp h
    obtain ⟨x, hx, hxp⟩ := List.mem_map.mp hmem
    exact ⟨x, (List.mem_filter.mp hx).1, hxp⟩

theorem extract_phrases_mem_ngram : ∀ (text : List Char) (n k : Nat) (p : List Char),
    p ∈ extract_phrases text n k →
    ∃ i, p = joinSpace (((tokenize_words text).drop i).take n) := by
  intro text n k p hp
  simp only [extract_phrases, rerank_phrases_diverse] at hp
  have h1 := (List.take_sublist k _).subset hp
  have h2 := (rerankGo_sublist _ 2 _).subset h1
  obtain ⟨x, hx, hxp⟩ := mem_if_filters h2
  have h3 := mem_freqItems_phrase hx
  rw [hxp] at h3
  obtain ⟨i, _, hjoin⟩ := List.mem_map.mp h3
  exact ⟨i, hjoin.symm⟩

/-- C2 (amended): whenever the normalized text coincides with the
space-join of its token sequence (no stopword, short token, or non-token
character is dropped between tokens) and the window-3 job-phrase list is
non-empty, `phrase_coverage` of the text against itself is exactly 1. -/
theorem C2_self_coverage_one :
    ∀ t : List Char, normalize t = joinSpace (tokenize_words t) →
      extract_phrases t 3 25 ≠ [] → (phrase_coverage t t).1 = 1 := by
  intro t hjoin hne
  have hall : ∀ p ∈ extract_phrases t 3 25, isSubstr p (normalize t) = true := by
    intro p hp
    obtain ⟨i, rfl⟩ := extract_phrases_mem_ngram t 3 25 p hp
    rw [isSubstr_iff, hjoin]
    exact SubstrP_joinSpace_slice _ i 3
  simp only [phrase_coverage]
  rw [List.filter_eq_self.mpr hall, if_neg hne, div_self]
  exact Nat.cast_ne_zero.mpr (fun h => hne (List.length_eq_zero.mp h))

/-- C2 counterexample: for the text "windows, linux, python desktop" the
window-3 job-phrase list is non-empty, yet the self coverage is 0, not 1 —
the commas separate the tokens in the normalized text, so no space-joined
3-gram occurs in it verbatim. -/
theorem C2_counterexample :
    extract_phrases (r"windows, linux, python desktop".data) 3 25 ≠ [] ∧
      (phrase_coverage (r"windows, linux, python desktop".data)
        (r"windows, linux, python desktop".data)).1 ≠ 1 := by
  constructor
  · decide
  · have h1 : extract_phrases (r"windows, linux, python desktop".data) 3 25 =
        [ r"linux python desktop".data, r"windows linux python".data ] := by decide
    have h2 : List.filter
        (fun p => isSubstr p (normalize (r"windows, linux, python desktop".data)))
        [ r"linux python desktop".data, r"windows linux python".data ] = [] := by decide
    simp only [phrase_coverage]
    rw [h1, h2]
    simp only [List.cons_ne_nil, if_false, List.length_nil, List.length_cons]
    norm_num

/-- Witness for C2 (amended) at a concrete text whose normal form equals
the join of its tokens. -/
theorem C2_self_coverage_one_witness :
    normalize (r"windows linux python desktop".data) =
        joinSpace (tokenize_words (r"windows linux python desktop".data)) ∧
      extract_phrases (r"windows linux python desktop".data) 3 25 ≠ [] ∧
      (phrase_coverage (r"windows linux python desktop".data)
        (r"windows linux python desktop".data)).1 = 1 :=
  ⟨by decide, by decide, C2_self_coverage_one _ (by decide) (by decide)⟩

/- ## Edit suggester -/

/-- A suggested edit (`SuggestedEdit` dataclass, lines 46–52). -/
structure SuggestedEdit where
  target : List Char
  original : List Char
  suggestion : List Char
  rationale : List Char
  needs_confirmation : Bool
deriving DecidableEq

/-- End-of-match boundary for the filler regex: end of text or a non-word
character (every filler word ends in a word character, so `\b` holds there
exactly when the next character is non-word). -/
def nonWordNext (l : List Char) : Bool :=
  match l with
  | [] => true
  | c :: _ => !isWordChar c

/-- Length of the filler-word alternative matching at the head of `l`
(`very`, `really` or `just`, case-insensitively, in the alternation order
of the pattern), or 0 when none matches.  The word boundary before the
match is checked by the caller. -/
def fillerMatchLen (l : List Char) : Nat :=
  if ((l.take 4).map Char.toLower == r"very".data) && nonWordNext (l.drop 4) then 4
  else if ((l.take 6).map Char.toLower == r"really".data) && nonWordNext (l.drop 6) then 6
  else if ((l.take 4).map Char.toLower == r"just".data) && nonWordNext (l.drop 4) then 4
  else 0

/-- Scanner of `re.sub(r"\bvery\b|\breally\b|\bjust\b", "", b, re.IGNORECASE)`
(line 165): walk left to right; where the previous character is non-word
(`prevW = false`), a whole-word filler occurrence is dropped and scanning
resumes after it (the character before the resume point is then a letter,
so `prevW` becomes true); otherwise one character is copied.  The fuel only
bounds the recursion: every step consumes at least one character, so
`fuel = length l` always suffices and the fallthrough at fuel 0 is dead. -/
def removeFillerGo : Nat → Bool → List Char → List Char
  | 0, _, l => l
  | fuel + 1, prevW, l =>
    match l with
    | [] => []
    | c :: rest =>
      if prevW then c :: removeFillerGo fuel (isWordChar c) rest
      else if fillerMatchLen l = 0 then c :: removeFillerGo fuel (isWordChar c) rest
      else removeFillerGo fuel true (l.drop (fillerMatchLen l))

/-- Whole-word filler removal (`re.sub` call of line 165). -/
def removeFiller (l : List Char) : List Char :=
  removeFillerGo l.length false l

/-- Scanner of `re.sub(r"\s{2,}", " ", s)` (line 166): a run of two or more
whitespace characters becomes one space; a single whitespace character is
kept verbatim.  Fuel bounds the recursion; `length l` suffices. -/
def collapseMultiGo : Nat → List Char → List Char
  | 0, l => l
  | fuel + 1, l =>
    match l with
    | [] => []
    | c :: rest =>
      if isWS c then
        match rest with
        | [] => [c]
        | d :: _ =>
          if isWS d then ' ' :: collapseMultiGo fuel (rest.dropWhile isWS)
          else c :: collapseMultiGo fuel rest
      else c :: collapseMultiGo fuel rest

/-- Multi-whitespace collapsing (`re.sub` call of line 166). -/
def collapseMulti (l : List Char) : List Char :=
  collapseMultiGo l.length l

/-- The tighten step of `safe_rewrite_bullet` (lines 165–166): remove whole
filler words, strip the ends, collapse multi-space runs. -/
def tighten (b : List Char) : List Char :=
  collapseMulti (stripWS (removeFiller b))

/-- The high-signal keyword subset eligible for injection (line 172). -/
def eligible_kws : List (List Char) :=
  [ r"troubleshooting".data, r"automation".data, r"incident".data, r"sla".data,
    r"api".data, r"sql".data, r"python".data, r"git".data ]

/-- The tool-name subset that triggers the confirmation guard (line 181). -/
def tool_kws : List (List Char) :=
  [ r"python".data, r"sql".data, r"api".data, r"git".data ]

/-- The keyword-selection loop of `safe_rewrite_bullet` (lines 168–174):
scan the missing keywords in order, skip any whose lowercase form occurs as
a plain substring of the normalized bullet, and pick the first remaining
one that belongs to the eligible subset. -/
def selectKw (b : List Char) : List (List Char) → Option (List Char)
  | [] => none
  | kw :: rest =>
    if isSubstr (kw.map Char.toLower) (normalize b) then selectKw b rest
    else if decide (kw.map Char.toLower ∈ eligible_kws) then some kw
    else selectKw b rest

/-- Rendering of the injected tool name (line 182): `add_kw.upper()` when
the keyword is exactly "sql", else the keyword verbatim. -/
def renderTool (kw : List Char) : List Char :=
  if kw = r"sql".data then r"SQL".data else kw

/-- The tool parenthetical appended in the confirmation branch (line 182). -/
def toolMention (kw : List Char) : List Char :=
  r" (Tools used where applicable: ".data ++ renderTool kw ++ r".)".data

/-- The focus parenthetical appended in the non-tool branch (line 186). -/
def focusMention (kw : List Char) : List Char :=
  r" (Focus: ".data ++ kw ++ r".)".data

/-- Base rationale text (line 178). -/
def baseRationale : List Char := r"Tightened wording for clarity.".data

/-- Rationale in the tool branch (line 184). -/
def toolRationale (kw : List Char) : List Char :=
  baseRationale ++
    " Added a tool mention to align with the posting—confirm you actually used ".data ++
    kw ++ r".".data

/-- Rationale in the focus branch (line 187). -/
def focusRationale (kw : List Char) : List Char :=
  baseRationale ++ " Added focus keyword \x27".data ++ kw ++
    "\x27 to better match the posting.".data

/-- The bullet rewriter (`safe_rewrite_bullet`, lines 160–198). -/
def safe_rewrite_bullet (bullet : List Char) (target_keywords : List (List Char)) :
    Option SuggestedEdit :=
  let b := stripWS bullet
  if decide (b = []) || decide (b.length < 20) then none
  else
    let tightened := tighten b
    let res : List Char × Bool × List Char :=
      match selectKw b target_keywords with
      | some kw =>
        if decide (kw.map Char.toLower ∈ tool_kws) then
          (tightened ++ toolMention kw, true, toolRationale kw)
        else
          (tightened ++ focusMention kw, false, focusRationale kw)
      | none => (tightened, false, baseRationale)
    if res.1 = b then none
    else some ⟨ r"bullet".data, b, res.1, res.2.2, res.2.1⟩

/- ## C9: short bullets -/

/-- C9: a bullet whose stripped form is shorter than 20 characters yields
no suggested edit — `safe_rewrite_bullet` returns `none`. -/
theorem C9_short_bullet_none :
    ∀ (bullet : List Char) (kws : List (List Char)),
      (stripWS bullet).length < 20 → safe_rewrite_bullet bullet kws = none := by
  intro bullet kws h
  simp only [safe_rewrite_bullet]
  rw [if_pos (by simp [h])]

/-- Witness for C9 at a concrete short bullet. -/
theorem C9_short_bullet_none_witness :
    (stripWS (r"Fixed stuff".data)).length < 20 ∧
      safe_rewrite_bullet (r"Fixed stuff".data) [ r"python".data ] = none :=
  ⟨by decide, C9_short_bullet_none _ _ (by decide)⟩

/- ## C10: substring-based presence check -/

/-- C10: in the keyword-injection loop a missing keyword is deemed already
present exactly when its lowercase form occurs as a plain substring of the
normalized bullet — no word-boundary matching.  First conjunct: a keyword
whose lowercase form is a substring is skipped.  Second conjunct: one whose
lowercase form is not a substring and is eligible is selected.  The last
two conjuncts instantiate this at a bullet containing "rapid": the keyword
"api" is never injected, and no suggestion is produced at all. -/
theorem C10_substring_presence_check :
    (∀ (b kw : List Char) (kws : List (List Char)),
      isSubstr (kw.map Char.toLower) (normalize b) = true →
      selectKw b (kw :: kws) = selectKw b kws) ∧
    (∀ (b kw : List Char) (kws : List (List Char)),
      isSubstr (kw.map Char.toLower) (normalize b) = false →
      decide (kw.map Char.toLower ∈ eligible_kws) = true →
      selectKw b (kw :: kws) = some kw) ∧
    selectKw (r"Delivered rapid improvements for the support team".data)
      [ r"api".data ] = none ∧
    safe_rewrite_bullet (r"Delivered rapid improvements for the support team".data)
      [ r"api".data ] = none := by
  refine ⟨?_, ?_, by decide, by decide⟩
  · intro b kw kws h
    simp only [selectKw, h, if_true]
  · intro b kw kws h1 h2
    simp only [selectKw, h1, Bool.false_eq_true, if_false, h2, if_true]

/-- Witness for C10: the skip equation applied at a concrete bullet
containing "rapid" and the keyword "api". -/
theorem C10_substring_presence_check_witness :
    selectKw (r"Delivered rapid improvements for the support team".data)
        ( r"api".data :: []) =
      selectKw (r"Delivered rapid improvements for the support team".data) [] :=
  C10_substring_presence_check.1 _ _ [] (by decide)

/- ## Whitespace-free substrings survive normalization -/

theorem SubstrP_cons_intro {w m : List Char} (c : Char) (h : SubstrP w m) :
    SubstrP w (c :: m) := by
  obtain ⟨pre, post, rfl⟩ := h
  exact ⟨c :: pre, post, rfl⟩

theorem SubstrP_nil_elim {w : List Char} (h : SubstrP w []) : w = [] := by
  obtain ⟨pre, post, hp⟩ := h
  rcases List.append_eq_nil.mp hp.symm with ⟨h1, _⟩
  exact (List.append_eq_nil.mp h1).2

theorem SubstrP_cons_elim {w : List Char} {c : Char} {rest : List Char}
    (h : SubstrP w (c :: rest)) :
    (∃ t, c :: rest = w ++ t) ∨ SubstrP w rest := by
  obtain ⟨pre, post, hpre⟩ := h
  cases pre with
  | nil => exact Or.inl ⟨post, by simpa using hpre⟩
  | cons x xs =>
    rw [List.cons_append, List.cons_append] at hpre
    right
    obtain ⟨-, h2⟩ := List.cons.inj hpre
    exact ⟨xs, post, h2⟩

theorem front_collapseGo : ∀ (w : List Char), (∀ c ∈ w, isWS c = false) →
    ∀ r : List Char, (∃ t, r = w ++ t) → ∃ t, collapseGo false r = w ++ t := by
  intro w
  induction w with
  | nil => intro _ r _; exact ⟨collapseGo false r, rfl⟩
  | cons a w' ih =>
    intro hWF r hr
    obtain ⟨t, rfl⟩ := hr
    have ha : isWS a = false := hWF a (List.mem_cons_self a w')
    obtain ⟨t', ht'⟩ := ih (fun c hc => hWF c (List.mem_cons_of_mem a hc))
      (w' ++ t) ⟨t, rfl⟩
    refine ⟨t', ?_⟩
    rw [List.cons_append]
    simp only [collapseGo, ha, Bool.false_eq_true, if_false]
    rw [ht']
    rfl

theorem SubstrP_collapseGo {w : List Char} (hne : w ≠ [])
    (hWF : ∀ c ∈ w, isWS c = false) :
    ∀ (s : List Char) (b : Bool), SubstrP w s → SubstrP w (collapseGo b s) := by
  intro s
  induction s with
  | nil =>
    intro b h
    simpa [collapseGo] using h
  | cons c rest ih =>
    intro b h
    rcases SubstrP_cons_elim h with ⟨t, hfront⟩ | hrest
    · obtain ⟨hd, w', rfl⟩ : ∃ hd w', w = hd :: w' := by
        cases w with
        | nil => exact absurd rfl hne
        | cons hd w' => exact ⟨hd, w', rfl⟩
      rw [List.cons_append] at hfront
      obtain ⟨rfl, hrt⟩ := List.cons.inj hfront
      have hc : isWS c = false := hWF c (List.mem_cons_self c w')
      have hred : collapseGo b (c :: rest) = c :: collapseGo false rest := by
        cases b <;> simp [collapseGo, hc]
      rw [hred]
      obtain ⟨t', ht'⟩ := front_collapseGo w'
        (fun x hx => hWF x (List.mem_cons_of_mem c hx)) rest ⟨t, hrt⟩
      exact ⟨[], t', by rw [ht']; rfl⟩
    · by_cases hc : isWS c = true
      · cases b with
        | true =>
          have : collapseGo true (c :: rest) = collapseGo true rest := by
            simp [collapseGo, hc]
          rw [this]
          exact ih true hrest
        | false =>
          have : collapseGo false (c :: rest) = ' ' :: collapseGo true rest := by
            simp [collapseGo, hc]
          rw [this]
          exact SubstrP_cons_intro _ (ih true hrest)
      · have hc' : isWS c = false := by revert hc; cases isWS c <;> simp
        have : collapseGo b (c :: rest) = c :: collapseGo false rest := by
          cases b <;> simp [collapseGo, hc']
        rw [this]
        exact SubstrP_cons_intro _ (ih false hrest)

theorem SubstrP_dropWhileWS {w : List Char} (hne : w ≠ [])
    (hWF : ∀ c ∈ w, isWS c = false) :
    ∀ s : List Char, SubstrP w s → SubstrP w (s.dropWhile isWS) := by
  intro s
  induction s with
  | nil => intro h; simpa using h
  | cons c rest ih =>
    intro h
    by_cases hc : isWS c = true
    · rw [List.dropWhile_cons, if_pos hc]
      rcases SubstrP_cons_elim h with ⟨t, hfront⟩ | hrest
      · obtain ⟨hd, w', rfl⟩ : ∃ hd w', w = hd :: w' := by
          cases w with
          | nil => exact absurd rfl hne
          | cons hd w' => exact ⟨hd, w', rfl⟩
        rw [List.cons_append] at hfront
        obtain ⟨rfl, -⟩ := List.cons.inj hfront
        rw [hWF c (List.mem_cons_self c w')] at hc
        cases hc
      · exact ih hrest
    · rw [List.dropWhile_cons, if_neg hc]
      exact h

theorem front_dropEndWS : ∀ (w : List Char), (∀ c ∈ w, isWS c = false) →
    ∀ m : List Char, (∃ t, m = w ++ t) → ∃ t, dropEndWS m = w ++ t := by
  intro w
  induction w with
  | nil => intro _ m _; exact ⟨dropEndWS m, rfl⟩
  | cons a w' ih =>
    intro hWF m hm
    obtain ⟨t, rfl⟩ := hm
    have ha : isWS a = false := hWF a (List.mem_cons_self a w')
    obtain ⟨t', ht'⟩ := ih (fun c hc => hWF c (List.mem_cons_of_mem a hc))
      (w' ++ t) ⟨t, rfl⟩
    refine ⟨t', ?_⟩
    rw [List.cons_append]
    simp only [dropEndWS, ha, Bool.and_false, Bool.false_eq_true, if_false]
    rw [ht']
    rfl

theorem SubstrP_dropEndWS {w : List Char} (hne : w ≠ [])
    (hWF : ∀ c ∈ w, isWS c = false) :
    ∀ s : List Char, SubstrP w s → SubstrP w (dropEndWS s) := by
  intro s
  induction s with
  | nil => intro h; simpa [dropEndWS] using h
  | cons c rest ih =>
    intro h
    by_cases hcond : (decide (dropEndWS rest = []) && isWS c) = true
    · exfalso
      rw [Bool.and_eq_true, decide_eq_true_eq] at hcond
      rcases SubstrP_cons_elim h with ⟨t, hfront⟩ | hrest
      · obtain ⟨hd, w', rfl⟩ : ∃ hd w', w = hd :: w' := by
          cases w with
          | nil => exact absurd rfl hne
          | cons hd w' => exact ⟨hd, w', rfl⟩
        rw [List.cons_append] at hfront
        obtain ⟨rfl, -⟩ := List.cons.inj hfront
        rw [hWF c (List.mem_cons_self c w')] at hcond
        cases hcond.2
      · have h2 := ih hrest
        rw [hcond.1] at h2
        exact hne (SubstrP_nil_elim h2)
    · have hred : dropEndWS (c :: rest) = c :: dropEndWS rest := by
        simp only [dropEndWS]
        rw [if_neg hcond]
      rw [hred]
      rcases SubstrP_cons_elim h with ⟨t, hfront⟩ | hrest
      · obtain ⟨hd, w', rfl⟩ : ∃ hd w', w = hd :: w' := by
          cases w with
          | nil => exact absurd rfl hne
          | cons hd w' => exact ⟨hd, w', rfl⟩
        rw [List.cons_append] at hfront
        obtain ⟨rfl, hrt⟩ := List.cons.inj hfront
        obtain ⟨t', ht'⟩ := front_dropEndWS w'
          (fun x hx => hWF x (List.mem_cons_of_mem c hx)) rest ⟨t, hrt⟩
        exact ⟨[], t', by rw [ht']; rfl⟩
      · exact SubstrP_cons_intro _ (ih hrest)

theorem SubstrP_map {w s : List Char} (f : Char → Char) (h : SubstrP w s) :
    SubstrP (w.map f) (s.map f) := by
  obtain ⟨pre, post, rfl⟩ := h
  exact ⟨pre.map f, post.map f, by simp⟩

theorem SubstrP_normalize {w s : List Char} (hne : w ≠ [])
    (hWF : ∀ c ∈ w, isWS c = false) (h : SubstrP w s) :
    SubstrP (w.map Char.toLower) (normalize s) := by
  unfold normalize collapseWS stripWS
  apply SubstrP_map
  apply SubstrP_dropEndWS hne hWF
  apply SubstrP_dropWhileWS hne hWF
  exact SubstrP_collapseGo hne hWF s false h

/- ## C8: the tool-mention confirmation guard -/

theorem selectKw_some_inv : ∀ (kws : List (List Char)) (b kw : List Char),
    selectKw b kws = some kw →
    isSubstr (kw.map Char.toLower) (normalize b) = false ∧
      decide (kw.map Char.toLower ∈ eligible_kws) = true := by
  intro kws
  induction kws with
  | nil => intro b kw h; cases h
  | cons k rest ih =>
    intro b kw h
    simp only [selectKw] at h
    by_cases h1 : isSubstr (k.map Char.toLower) (normalize b) = true
    · rw [if_pos h1] at h
      exact ih b kw h
    · rw [if_neg h1] at h
      have h1' : isSubstr (k.map Char.toLower) (normalize b) = false := by
        revert h1; cases (isSubstr (k.map Char.toLower) (normalize b)) <;> simp
      by_cases h2 : decide (k.map Char.toLower ∈ eligible_kws) = true
      · rw [if_pos h2] at h
        obtain rfl := Option.some.inj h
        exact ⟨h1', h2⟩
      · rw [if_neg h2] at h
        exact ih b kw h

theorem tool_kw_facts {kw : List Char}
    (h : decide (kw.map Char.toLower ∈ tool_kws) = true) :
    renderTool kw ≠ [] ∧ (∀ c ∈ renderTool kw, isWS c = false) ∧
      (renderTool kw).map Char.toLower = kw.map Char.toLower := by
  rw [decide_eq_true_eq] at h
  by_cases hsql : kw = r"sql".data
  · subst hsql
    exact ⟨by decide, by decide, by decide⟩
  · have hr : renderTool kw = kw := by simp [renderTool, hsql]
    rw [hr]
    have hallWF : ∀ w ∈ tool_kws, ∀ c ∈ w, isWS c = false := by decide
    refine ⟨?_, ?_, rfl⟩
    · intro hk
      rw [hk] at h
      simp [tool_kws] at h
    · intro c hc
      have hm : Char.toLower c ∈ kw.map Char.toLower := List.mem_map_of_mem _ hc
      have hW := hallWF _ h _ hm
      rw [isWS_toLower] at hW
      exact hW

/-- C8: whenever the bullet rewrite selects a keyword from the tool-name
subset {python, sql, api, git}, a SuggestedEdit is emitted whose
`needs_confirmation` is true and whose suggestion is the tightened bullet
followed by the parenthetical tool mention ("sql" rendered uppercase inside
it); and a tool mention is never appended with `needs_confirmation` false —
an emitted edit without the confirmation flag carries either the bare
tightened bullet or a focus mention of a non-tool keyword. -/
theorem C8_tool_mention_needs_confirmation :
    (∀ (bullet : List Char) (kws : List (List Char)) (kw : List Char),
      (decide (stripWS bullet = []) || decide ((stripWS bullet).length < 20)) = false →
      selectKw (stripWS bullet) kws = some kw →
      decide (kw.map Char.toLower ∈ tool_kws) = true →
      ∃ e : SuggestedEdit, safe_rewrite_bullet bullet kws = some e ∧
        e.needs_confirmation = true ∧
        e.suggestion = tighten (stripWS bullet) ++ toolMention kw) ∧
    (∀ (bullet : List Char) (kws : List (List Char)) (e : SuggestedEdit),
      safe_rewrite_bullet bullet kws = some e →
      e.needs_confirmation = false →
      e.suggestion = tighten (stripWS bullet) ∨
      ∃ kw, selectKw (stripWS bullet) kws = some kw ∧
        decide (kw.map Char.toLower ∈ tool_kws) = false ∧
        e.suggestion = tighten (stripWS bullet) ++ focusMention kw) := by
  constructor
  · intro bullet kws kw hlen hsel htool
    have hkey : ¬(tighten (stripWS bullet) ++ toolMention kw = stripWS bullet) := by
      intro heq
      obtain ⟨hrne, hrwf, hrl⟩ := tool_kw_facts htool
      have hsub : SubstrP (renderTool kw) (stripWS bullet) := by
        refine ⟨tighten (stripWS bullet) ++ r" (Tools used where applicable: ".data,
          r".)".data, ?_⟩
        conv_lhs => rw [← heq]
        unfold toolMention
        simp [List.append_assoc]
      have h2 := SubstrP_normalize hrne hrwf hsub
      rw [hrl] at h2
      have h3 := (isSubstr_iff _ _).mpr h2
      have h4 := (selectKw_some_inv kws _ kw hsel).1
      rw [h4] at h3
      cases h3
    refine ⟨⟨ r"bullet".data, stripWS bullet,
      tighten (stripWS bullet) ++ toolMention kw, toolRationale kw, true⟩,
      ?_, rfl, rfl⟩
    simp only [safe_rewrite_bullet]
    rw [if_neg (by simp [hlen])]
    simp only [hsel]
    rw [if_pos htool]
    dsimp only
    rw [if_neg hkey]
  · intro bullet kws e hsome hconf
    simp only [safe_rewrite_bullet] at hsome
    by_cases hlen :
        (decide (stripWS bullet = []) || decide ((stripWS bullet).length < 20)) = true
    · rw [if_pos hlen] at hsome; cases hsome
    · rw [if_neg hlen] at hsome
      cases hsel : selectKw (stripWS bullet) kws with
      | none =>
        simp only [hsel] at hsome
        by_cases heq : tighten (stripWS bullet) = stripWS bullet
        · rw [if_pos heq] at hsome; cases hsome
        · rw [if_neg heq] at hsome
          obtain rfl := Option.some.inj hsome
          left
          rfl
      | some kw =>
        simp only [hsel] at hsome
        by_cases htool : decide (kw.map Char.toLower ∈ tool_kws) = true
        · rw [if_pos htool] at hsome
          dsimp only at hsome
          by_cases heq : tighten (stripWS bullet) ++ toolMention kw = stripWS bullet
          · rw [if_pos heq] at hsome; cases hsome
          · rw [if_neg heq] at hsome
            obtain rfl := Option.some.inj hsome
            simp at hconf
        · rw [if_neg htool] at hsome
          dsimp only at hsome
          by_cases heq : tighten (stripWS bullet) ++ focusMention kw = stripWS bullet
          · rw [if_pos heq] at hsome; cases hsome
          · rw [if_neg heq] at hsome
            obtain rfl := Option.some.inj hsome
            right
            refine ⟨kw, rfl, ?_, rfl⟩
            revert htool
            cases (decide (kw.map Char.toLower ∈ tool_kws)) <;> simp

/-- Witness for C8 at a concrete bullet and missing-keyword list. -/
theorem C8_tool_mention_needs_confirmation_witness :
    ∃ e : SuggestedEdit,
      safe_rewrite_bullet (r"Resolved customer issues quickly every day".data)
        [ r"git".data ] = some e ∧
      e.needs_confirmation = true ∧
      e.suggestion =
        tighten (stripWS (r"Resolved customer issues quickly every day".data)) ++
          toolMention (r"git".data) :=
  C8_tool_mention_needs_confirmation.1 _ _ _ (by decide) (by decide) (by decide)

end Agent
